import Mathlib

/-!
Shallow embedding of the easy-fs virtual filesystem layer
(`src/easy-fs/src/vfs.rs`) of this repository, together with the parts of
the lower layers it depends on (DiskInode, DirEntry, the two bitmap
allocators and the EasyFileSystem manager), which are not part of the
shown sources and are therefore modelled from the specification.

Conventions of the embedding:
- Machine integers are `Nat` (sizes, offsets, inode slots, block ids) and
  `Int` (the `isize` status codes returned by `link`/`unlink`).
- A fallible or panicking computation is an `Option` value: `none` stands
  for a panic/abort (a failed `assert!`, an `unwrap` of an exhausted
  allocator, a bitmap double-free), `some` for normal completion.  State
  is threaded explicitly: a mutating operation returns
  `Option (result × EasyFileSystem)`.
- File content is a byte list read with default 0 beyond its length,
  which realises the spec's rule that never-written byte ranges read as
  zero (newly allocated blocks are zero-filled).
- A directory's content is its packed, insertion-ordered sequence of
  `DirEntry` records; the (de)serialisation of `DirEntry` through the
  byte-range path (layout.rs, not shown) is modelled by storing the
  records directly, with `size` still tracked in bytes as in the source.
-/

/-- Block size in bytes (spec section 3: fixed 512-byte blocks). -/
def BLOCK_SZ : Nat := 512

/-- Size in bytes of one on-disk `DirEntry` record (spec section 3:
fixed-size `DIRENT_SZ`-byte records; 32 in the reference layout:
a bounded name field plus a 4-byte inode number). -/
def DIRENT_SZ : Nat := 32

/-- Type tag of a `DiskInode` (spec section 3). -/
inductive DiskInodeType : Type
  | file : DiskInodeType
  | directory : DiskInodeType
deriving DecidableEq, Repr

/-- Modelled from the spec: a directory entry record (layout.rs is not in
the shown sources).  A bounded-length name and an inode slot number. -/
structure DirEntry : Type where
  name : String
  inode_number : Nat
deriving DecidableEq, Repr

/-- Modelled from the spec: `DirEntry::empty()` is the zeroed record. -/
def DirEntry.empty : DirEntry := ⟨"", 0⟩

/-- Modelled from the spec: the on-disk inode record (layout.rs is not in
the shown sources).  `size` is the byte length of the contents, `nlink`
the number of directory entries pointing at this inode.  The block-pointer
map is represented by `blocks`, the ordered list of block ids occupied by
this inode; `bytes` is the file content (reads default to 0 beyond the
written prefix, the spec's zero-fill rule); `entries` is the packed
directory-entry sequence when the inode is a directory. -/
structure DiskInode : Type where
  size : Nat
  ty : DiskInodeType
  nlink : Nat
  bytes : List Nat
  entries : List DirEntry
  blocks : List Nat
deriving DecidableEq, Repr

/-- The zeroed inode record (content of a never-initialised slot). -/
def DiskInode.empty : DiskInode :=
  { size := 0, ty := DiskInodeType.file, nlink := 0,
    bytes := [], entries := [], blocks := [] }

/-- Modelled from the spec: `DiskInode::initialize(type)` (here initInode) zeroes the
record, sets size 0, sets the type, and sets nlink 1. -/
def DiskInode.initInode (t : DiskInodeType) : DiskInode :=
  { size := 0, ty := t, nlink := 1, bytes := [], entries := [], blocks := [] }

/-- Predicate: the inode is a directory (`DiskInode::is_dir`). -/
def DiskInode.is_dir (di : DiskInode) : Bool :=
  di.ty = DiskInodeType.directory

/-- Modelled from the spec: `DiskInode::total_blocks(size)`, the number of
blocks occupied by a file of the given byte size.  The spec gives the
direct/indirect1/indirect2 thresholds only qualitatively, with no numeric
constants, so every occupied block is modelled uniformly (for the small
sizes exercised here the reference layout also uses direct blocks only). -/
def total_blocks (size : Nat) : Nat := (size + BLOCK_SZ - 1) / BLOCK_SZ

/-- Modelled from the spec: `DiskInode::blocks_num_needed(new_size)`, the
number of fresh blocks required to grow from the current size. -/
def DiskInode.blocks_num_needed (di : DiskInode) (new_size : Nat) : Nat :=
  total_blocks new_size - total_blocks di.size

/-- Modelled from the spec: `DiskInode::increase_size(new_size, v, dev)`:
the caller supplies exactly the freshly allocated block ids; the record
absorbs them and sets `size := new_size`.  New blocks are zero-filled,
which the byte model realises by reading 0 beyond the written prefix. -/
def DiskInode.increase_size (di : DiskInode) (new_size : Nat)
    (v : List Nat) : DiskInode :=
  { di with size := new_size, blocks := di.blocks ++ v }

/-- Modelled from the spec: `DiskInode::clear_size(dev)` walks the whole
pointer structure, returns every occupied block id for the caller to hand
to the allocator, and resets the record to size 0 with all pointers
cleared. -/
def DiskInode.clear_size (di : DiskInode) : List Nat × DiskInode :=
  (di.blocks,
   { di with size := 0, bytes := [], entries := [], blocks := [] })

/-- Write one element at index `i` of a list, padding with `d` when `i`
is beyond the end (the backing store is as long as the allocated blocks
say; the pad value is the zero-fill default). -/
def listSetPad {α : Type} (d : α) : List α → Nat → α → List α
  | [], 0, v => [v]
  | [], i + 1, v => d :: listSetPad d [] i v
  | _ :: xs, 0, v => v :: xs
  | x :: xs, i + 1, v => x :: listSetPad d xs i v

/-- Byte-wise store of `src` into `dst` starting at `offset`
(the copy loop at the heart of `DiskInode::write_at`). -/
def writeBytes : List Nat → Nat → List Nat → List Nat
  | dst, _, [] => dst
  | dst, o, b :: rest => writeBytes (listSetPad 0 dst o b) (o + 1) rest

/-- Modelled from the spec: `DiskInode::read_at(offset, buf, dev)` copies
`min (buf.len) (size - offset)` bytes starting at `offset` and returns 0
bytes when `offset >= size`.  The result is the list of bytes read. -/
def DiskInode.read_at (di : DiskInode) (offset len : Nat) : List Nat :=
  if di.size ≤ offset then []
  else (List.range (min len (di.size - offset))).map
    fun i => di.bytes.getD (offset + i) 0

/-- Modelled from the spec: `DiskInode::write_at(offset, buf, dev)` writes
all of `buf` at `offset`; the caller has already grown the inode so that
`offset + buf.len <= size`.  It does not change `size`. -/
def DiskInode.write_at (di : DiskInode) (offset : Nat)
    (buf : List Nat) : DiskInode :=
  { di with bytes := writeBytes di.bytes offset buf }

/-- The filesystem manager state: the inode records (indexed by inode
slot) and the two bitmap allocators (spec section 3/4.4; efs.rs and
bitmap.rs are not in the shown sources).  Block ids are bitmap-relative
(spec: data bitmap bit j maps to data block j of the data area). -/
structure EasyFileSystem : Type where
  inodes : List DiskInode
  inodeBitmap : List Bool
  dataBitmap : List Bool
deriving DecidableEq, Repr

/-- Modelled from the spec: `Bitmap::alloc` scans for the first clear
bit, sets it and returns its index; `none` when the region is full. -/
def bitmap_alloc (bm : List Bool) : Option (Nat × List Bool) :=
  match bm.findIdx? (fun b => !b) with
  | none => none
  | some i => some (i, bm.set i true)

/-- Modelled from the spec: `Bitmap::dealloc` clears a previously set
bit; clearing an already-clear bit is a fatal invariant violation
(asserted in the source), modelled as `none`. -/
def bitmap_dealloc (bm : List Bool) (i : Nat) : Option (List Bool) :=
  if bm.getD i false then some (bm.set i false) else none

/-- Modelled from the spec: `EasyFileSystem::alloc_inode`.  The manager's
signature returns a plain slot number (in vfs.rs it is used as a `u32`,
not an `Option`), so bitmap exhaustion aborts inside the manager; the
abort is the `none` outcome. -/
def alloc_inode (fs : EasyFileSystem) : Option (Nat × EasyFileSystem) :=
  match bitmap_alloc fs.inodeBitmap with
  | none => none
  | some (i, bm) => some (i, { fs with inodeBitmap := bm })

/-- Modelled from the spec: `EasyFileSystem::alloc_data`.  As with
`alloc_inode`, vfs.rs consumes a plain block id
(`v.push(fs.alloc_data())`), so exhaustion aborts inside the manager. -/
def alloc_data (fs : EasyFileSystem) : Option (Nat × EasyFileSystem) :=
  match bitmap_alloc fs.dataBitmap with
  | none => none
  | some (b, bm) => some (b, { fs with dataBitmap := bm })

/-- Modelled from the spec: `EasyFileSystem::dealloc_data`. -/
def dealloc_data (fs : EasyFileSystem) (b : Nat) :
    Option EasyFileSystem :=
  match bitmap_dealloc fs.dataBitmap b with
  | none => none
  | some bm => some { fs with dataBitmap := bm }

/-- The inode record stored at a slot (a never-written slot reads as the
zeroed record). -/
def getInode (fs : EasyFileSystem) (slot : Nat) : DiskInode :=
  fs.inodes.getD slot DiskInode.empty

/-- Store an inode record at a slot. -/
def setInode (fs : EasyFileSystem) (slot : Nat) (di : DiskInode) :
    EasyFileSystem :=
  { fs with inodes := listSetPad DiskInode.empty fs.inodes slot di }

/-- The in-order list of directory entries actually read by the scan
loops of vfs.rs: entry i is the record at byte offset `DIRENT_SZ * i`,
for `i < size / DIRENT_SZ` (vfs.rs:64, 169, 282). -/
def direntsRead (di : DiskInode) : List DirEntry :=
  (List.range (di.size / DIRENT_SZ)).map
    fun i => di.entries.getD i DirEntry.empty

/-- Write one directory entry record at index `i` of the directory's
entry sequence (vfs.rs writes the serialised record at byte offset
`i * DIRENT_SZ` through `DiskInode::write_at`). -/
def writeDirent (di : DiskInode) (i : Nat) (e : DirEntry) : DiskInode :=
  { di with entries := listSetPad DirEntry.empty di.entries i e }

/-- Inode::find_inode_id (vfs.rs:57-80): asserts the receiver is a
directory (`none` = assertion failure), then scans the
`size / DIRENT_SZ` entries in storage order and returns the inode
number of the first entry whose name matches. -/
def findInodeId (di : DiskInode) (name : String) : Option (Option Nat) :=
  if di.ty = DiskInodeType.directory then
    some ((direntsRead di).findSome?
      fun d => if d.name = name then some d.inode_number else none)
  else none

namespace Inode

/-- Inode::find (vfs.rs:82-97): locks the manager, scans the directory
by name, and returns a handle positioned at the found slot.  The handle
is represented by its inode slot number (its `inode_id`); the outer
`Option` is the is-directory assertion inside `find_inode_id`. -/
def find (fs : EasyFileSystem) (dir : Nat) (name : String) :
    Option (Option Nat) :=
  findInodeId (getInode fs dir) name

/-- Allocate `n` data blocks one by one
(the `for _ in 0..blocks_needed { v.push(fs.alloc_data()); }` loop of
vfs.rs:110-112); aborts (`none`) as soon as the allocator is exhausted. -/
def allocMany : Nat → EasyFileSystem → Option (List Nat × EasyFileSystem)
  | 0, fs => some ([], fs)
  | n + 1, fs =>
    match alloc_data fs with
    | none => none
    | some (b, fs1) =>
      match allocMany n fs1 with
      | none => none
      | some (rest, fs2) => some (b :: rest, fs2)

/-- Inode::increase_size (vfs.rs:99-114): returns unchanged when
`new_size < size`; otherwise allocates exactly `blocks_num_needed`
data blocks from the manager and grows the disk inode with them.
There is no failure channel: allocator exhaustion aborts (`none`). -/
def increase_size (fs : EasyFileSystem) (di : DiskInode)
    (new_size : Nat) : Option (DiskInode × EasyFileSystem) :=
  if new_size < di.size then some (di, fs)
  else
    match allocMany (di.blocks_num_needed new_size) fs with
    | none => none
    | some (v, fs1) => some (di.increase_size new_size v, fs1)

/-- Inode::create (vfs.rs:116-164): under the manager lock, asserts the
receiver is a directory, returns `none` (the Rust `None`) with no state
change when the name already exists, and otherwise allocates an inode
slot, initialises it as a file with nlink 1, appends one directory entry
at index `size / DIRENT_SZ`, and returns the new handle's slot. -/
def create (fs : EasyFileSystem) (dir : Nat) (name : String) :
    Option (Option Nat × EasyFileSystem) :=
  match findInodeId (getInode fs dir) name with
  | none => none
  | some (some _) => some (none, fs)
  | some none =>
    match alloc_inode fs with
    | none => none
    | some (newId, fs1) =>
      let fs2 := setInode fs1 newId
        (DiskInode.initInode DiskInodeType.file)
      let root := getInode fs2 dir
      let fc := root.size / DIRENT_SZ
      match increase_size fs2 root ((fc + 1) * DIRENT_SZ) with
      | none => none
      | some (root1, fs3) =>
        some (some newId,
          setInode fs3 dir (writeDirent root1 fc (DirEntry.mk name newId)))

/-- Inode::ls (vfs.rs:166-185): the names of all current entries in
storage order. -/
def ls (fs : EasyFileSystem) (dir : Nat) : List String :=
  (direntsRead (getInode fs dir)).map fun d => d.name

/-- Inode::read_at (vfs.rs:187-192): delegate to the disk inode's
byte-range read; the result is the list of bytes read. -/
def read_at (fs : EasyFileSystem) (slot offset len : Nat) : List Nat :=
  (getInode fs slot).read_at offset len

/-- Inode::write_at (vfs.rs:194-202): grow the inode to cover
`offset + buf.len` (allocating through the manager), then store the
bytes; returns the written byte count. -/
def write_at (fs : EasyFileSystem) (slot offset : Nat)
    (buf : List Nat) : Option (Nat × EasyFileSystem) :=
  match increase_size fs (getInode fs slot) (offset + buf.length) with
  | none => none
  | some (di1, fs1) =>
    some (buf.length, setInode fs1 slot (di1.write_at offset buf))

/-- Inode::link (vfs.rs:218-243): `-1` when the two names are equal or
`old_name` does not resolve; otherwise appends one entry mapping
`new_name` to the slot `old_name` resolves to and increments that
slot's nlink.  No check that `new_name` is free is performed. -/
def link (fs : EasyFileSystem) (dir : Nat)
    (old_name new_name : String) : Option (Int × EasyFileSystem) :=
  if old_name = new_name then some (-1, fs)
  else
    match find fs dir old_name with
    | none => none
    | some none => some (-1, fs)
    | some (some t) =>
      let root := getInode fs dir
      let fc := root.size / DIRENT_SZ
      match increase_size fs root ((fc + 1) * DIRENT_SZ) with
      | none => none
      | some (root1, fs1) =>
        let fs2 := setInode fs1 dir
          (writeDirent root1 fc (DirEntry.mk new_name t))
        let ti := getInode fs2 t
        some (0, setInode fs2 t { ti with nlink := ti.nlink + 1 })

/-- One iteration of the scan loop of Inode::unlink (vfs.rs:283-294):
an entry whose name differs is pushed onto the keep list; a matching
entry records its inode number. -/
def unlinkScanStep (name : String) (acc : List DirEntry × Option Nat)
    (e : DirEntry) : List DirEntry × Option Nat :=
  if e.name = name then (acc.1, some e.inode_number)
  else (acc.1 ++ [e], acc.2)

/-- The scan loop of Inode::unlink (vfs.rs:281-295): every entry whose
name differs is pushed onto the keep list in order; a matching entry
records its inode number (the last match wins, as the loop does not
break). -/
def unlinkScan (ds : List DirEntry) (name : String) :
    List DirEntry × Option Nat :=
  ds.foldl (unlinkScanStep name) ([], none)

/-- Deallocate a list of data blocks one by one
(the `for data_block in data_blocks_dealloc` loops of vfs.rs). -/
def deallocMany : List Nat → EasyFileSystem → Option EasyFileSystem
  | [], fs => some fs
  | b :: rest, fs =>
    match dealloc_data fs b with
    | none => none
    | some fs1 => deallocMany rest fs1

/-- The rewrite loop of Inode::unlink (vfs.rs:304-306): write the kept
entries back one per slot starting at index `i`. -/
def writeDirentsFrom (di : DiskInode) (i : Nat) :
    List DirEntry → DiskInode
  | [] => di
  | e :: rest => writeDirentsFrom (writeDirent di i e) (i + 1) rest

/-- The target-inode update closure of Inode::unlink (vfs.rs:311-324):
decrement the target's nlink and, exactly when it reaches zero, free all
of the target's blocks (asserting the freed count matches
`total_blocks`). -/
def unlinkTargetUpdate (fs : EasyFileSystem) (t : Nat) :
    Option EasyFileSystem :=
  let ti := getInode fs t
  let ti1 := { ti with nlink := ti.nlink - 1 }
  if ti1.nlink = 0 then
    let cleared2 := ti1.clear_size
    if cleared2.1.length = total_blocks ti1.size then
      deallocMany cleared2.1 (setInode fs t cleared2.2)
    else none
  else some (setInode fs t ti1)

/-- Inode::unlink (vfs.rs:277-327): under the manager lock, scan the
directory recording the kept entries and the target; rebuild the
directory from scratch (free all its blocks — asserting the count
matches `total_blocks` — then re-grow it to the kept length and rewrite
the kept entries in order); return `-1` if no entry matched; otherwise
apply the target update, returning `0`. -/
def unlink (fs : EasyFileSystem) (dir : Nat) (name : String) :
    Option (Int × EasyFileSystem) :=
  let root := getInode fs dir
  let scanned := unlinkScan (direntsRead root) name
  let cleared := root.clear_size
  if cleared.1.length = total_blocks root.size then
    match deallocMany cleared.1 fs with
    | none => none
    | some fs1 =>
      match increase_size fs1 cleared.2
          (scanned.1.length * DIRENT_SZ) with
      | none => none
      | some (root1, fs2) =>
        let fs3 := setInode fs2 dir (writeDirentsFrom root1 0 scanned.1)
        match scanned.2 with
        | none => some (-1, fs3)
        | some t =>
          match unlinkTargetUpdate fs3 t with
          | none => none
          | some fs4 => some (0, fs4)
  else none

/-- Inode::nlink (vfs.rs:330-334). -/
def nlink (fs : EasyFileSystem) (slot : Nat) : Nat :=
  (getInode fs slot).nlink

end Inode

/-- An acquisition or release of the exclusive Filesystem Manager lock
(the `self.fs.lock()` mutex of vfs.rs).  Block-cache buffer locks are a
separate tier and are not traced here. -/
inductive LockEvent : Type
  | fsAcquire : LockEvent
  | fsRelease : LockEvent
deriving DecidableEq, Repr

/-- Manager-lock trace of Inode::find (vfs.rs:82-97): the guard is taken
at line 83 and dropped when the function returns. -/
def findLockEvents : List LockEvent :=
  [LockEvent.fsAcquire, LockEvent.fsRelease]

/-- Manager-lock trace of Inode::create (vfs.rs:116-164): the guard is
taken at line 117 and dropped at the end of the function, after the
existence check, the allocation, and the entry append. -/
def createLockEvents : List LockEvent :=
  [LockEvent.fsAcquire, LockEvent.fsRelease]

/-- Manager-lock trace of Inode::unlink (vfs.rs:277-327): the guard is
taken at line 278 and dropped at the end of the function, after the
scan, the rebuild, and the nlink update. -/
def unlinkLockEvents : List LockEvent :=
  [LockEvent.fsAcquire, LockEvent.fsRelease]

/-- Manager-lock trace of Inode::link (vfs.rs:218-243), parameterised by
whether the two names are equal (early return at line 219-221, before
any lock) and whether `old_name` resolves.  The resolution step calls
`self.find(old_name)` (line 222), which takes and releases the manager
lock internally; only then, inside the success branch, is the lock taken
again (line 223) for the append and the nlink increment. -/
def linkLockEvents (sameName oldResolves : Bool) : List LockEvent :=
  if sameName then []
  else
    findLockEvents ++
      (if oldResolves then [LockEvent.fsAcquire, LockEvent.fsRelease]
       else [])

/-! Helper lemmas about the list primitives of the embedding. -/

theorem getD_listSetPad {α : Type} (d : α) (l : List α) (i j : Nat)
    (v : α) :
    (listSetPad d l i v).getD j d = if j = i then v else l.getD j d := by
  induction i generalizing l j with
  | zero =>
    cases l with
    | nil =>
      cases j with
      | zero => simp [listSetPad]
      | succ k => simp [listSetPad]
    | cons x xs =>
      cases j with
      | zero => simp [listSetPad]
      | succ k => simp [listSetPad]
  | succ i ih =>
    cases l with
    | nil =>
      cases j with
      | zero => simp [listSetPad]
      | succ k =>
        simp only [listSetPad, List.getD_cons_succ, List.getD_nil]
        rw [ih]
        simp only [Nat.succ_inj]
        split <;> simp
    | cons x xs =>
      cases j with
      | zero => simp [listSetPad]
      | succ k =>
        simp only [listSetPad, List.getD_cons_succ]
        rw [ih]
        simp only [Nat.succ_inj]

theorem listSetPad_of_length_eq {α : Type} (d : α) (l : List α) (v : α) :
    listSetPad d l l.length v = l ++ [v] := by
  induction l with
  | nil => simp [listSetPad]
  | cons x xs ih => simp [listSetPad, ih]

theorem getD_writeBytes (src : List Nat) (dst : List Nat) (o j : Nat) :
    (writeBytes dst o src).getD j 0 =
      if o ≤ j ∧ j < o + src.length then src.getD (j - o) 0
      else dst.getD j 0 := by
  induction src generalizing dst o with
  | nil =>
    simp only [writeBytes, List.length_nil, Nat.add_zero]
    rw [if_neg (by omega)]
  | cons b rest ih =>
    simp only [writeBytes, List.length_cons]
    rw [ih]
    rcases Nat.lt_trichotomy j o with hlt | heq | hgt
    · rw [if_neg (by omega), if_neg (by omega), getD_listSetPad,
        if_neg (by omega)]
    · subst heq
      rw [if_neg (by omega), if_pos (by omega), getD_listSetPad,
        if_pos rfl, Nat.sub_self, List.getD_cons_zero]
    · by_cases hin : j < o + (rest.length + 1)
      · rw [if_pos (by omega), if_pos (by omega)]
        have h1 : j - o = (j - (o + 1)) + 1 := by omega
        rw [h1, List.getD_cons_succ]
      · rw [if_neg (by omega), if_neg (by omega), getD_listSetPad,
          if_neg (by omega)]

theorem map_getD_range {α : Type} (l : List α) (d : α) :
    (List.range l.length).map (fun i => l.getD i d) = l := by
  induction l with
  | nil => simp
  | cons a xs ih =>
    rw [List.length_cons, List.range_succ_eq_map, List.map_cons,
      List.getD_cons_zero, List.map_map]
    have h2 : ((fun i => (a :: xs).getD i d) ∘ Nat.succ)
        = (fun i => xs.getD i d) := by
      funext i
      simp
    rw [h2, ih]

theorem findSome?_append_none {α β : Type} (l1 l2 : List α)
    (f : α → Option β) (h : l1.findSome? f = none) :
    (l1 ++ l2).findSome? f = l2.findSome? f := by
  induction l1 with
  | nil => simp
  | cons a xs ih =>
    simp only [List.findSome?_cons] at h ⊢
    cases hfa : f a with
    | some b => rw [hfa] at h; simp at h
    | none =>
      rw [hfa] at h
      simp only [List.cons_append, List.findSome?_cons, hfa]
      exact ih h

/-! Helper lemmas about the state primitives. -/

theorem getInode_setInode (fs : EasyFileSystem) (i j : Nat)
    (di : DiskInode) :
    getInode (setInode fs i di) j =
      if j = i then di else getInode fs j := by
  simp only [getInode, setInode]
  exact getD_listSetPad DiskInode.empty fs.inodes i j di

theorem alloc_data_spec (fs : EasyFileSystem) (b : Nat)
    (fs1 : EasyFileSystem) (h : alloc_data fs = some (b, fs1)) :
    fs1.inodes = fs.inodes ∧ fs1.inodeBitmap = fs.inodeBitmap := by
  unfold alloc_data at h
  cases hb : bitmap_alloc fs.dataBitmap with
  | none => rw [hb] at h; exact absurd h (by simp)
  | some p =>
    obtain ⟨i, bm⟩ := p
    rw [hb] at h
    simp only [Option.some.injEq, Prod.mk.injEq] at h
    obtain ⟨hb1, hfs⟩ := h
    subst hfs
    exact ⟨rfl, rfl⟩

theorem dealloc_data_spec (fs : EasyFileSystem) (b : Nat)
    (fs1 : EasyFileSystem) (h : dealloc_data fs b = some fs1) :
    fs1.inodes = fs.inodes ∧ fs1.inodeBitmap = fs.inodeBitmap := by
  unfold dealloc_data at h
  cases hb : bitmap_dealloc fs.dataBitmap b with
  | none => rw [hb] at h; exact absurd h (by simp)
  | some bm =>
    rw [hb] at h
    simp only [Option.some.injEq] at h
    subst h
    exact ⟨rfl, rfl⟩

theorem allocMany_spec (n : Nat) :
    ∀ (fs : EasyFileSystem) (v : List Nat) (fs1 : EasyFileSystem),
    Inode.allocMany n fs = some (v, fs1) →
    fs1.inodes = fs.inodes ∧ fs1.inodeBitmap = fs.inodeBitmap ∧
      v.length = n := by
  induction n with
  | zero =>
    intro fs v fs1 h
    unfold Inode.allocMany at h
    simp only [Option.some.injEq, Prod.mk.injEq] at h
    obtain ⟨h1, h2⟩ := h
    subst h1; subst h2
    exact ⟨rfl, rfl, rfl⟩
  | succ n ih =>
    intro fs v fs1 h
    unfold Inode.allocMany at h
    split at h
    · exact absurd h (by simp)
    · rename_i b fsa ha
      split at h
      · exact absurd h (by simp)
      · rename_i rest fsb hm
        simp only [Option.some.injEq, Prod.mk.injEq] at h
        obtain ⟨h1, h2⟩ := h
        subst h1; subst h2
        have hA := alloc_data_spec fs b fsa ha
        have hM := ih fsa rest fsb hm
        refine ⟨hM.1.trans hA.1, hM.2.1.trans hA.2, ?_⟩
        simp [hM.2.2]

theorem deallocMany_spec (bs : List Nat) :
    ∀ (fs fs1 : EasyFileSystem),
    Inode.deallocMany bs fs = some fs1 →
    fs1.inodes = fs.inodes ∧ fs1.inodeBitmap = fs.inodeBitmap := by
  induction bs with
  | nil =>
    intro fs fs1 h
    unfold Inode.deallocMany at h
    simp only [Option.some.injEq] at h
    subst h
    exact ⟨rfl, rfl⟩
  | cons b rest ih =>
    intro fs fs1 h
    unfold Inode.deallocMany at h
    cases hd : dealloc_data fs b with
    | none => rw [hd] at h; exact absurd h (by simp)
    | some fsa =>
      rw [hd] at h
      have hD := dealloc_data_spec fs b fsa hd
      have hR := ih fsa fs1 h
      exact ⟨hR.1.trans hD.1, hR.2.trans hD.2⟩

theorem increase_size_spec (fs : EasyFileSystem) (di : DiskInode)
    (ns : Nat) (di1 : DiskInode) (fs1 : EasyFileSystem)
    (h : Inode.increase_size fs di ns = some (di1, fs1)) :
    di1.ty = di.ty ∧ di1.nlink = di.nlink ∧ di1.entries = di.entries ∧
    di1.bytes = di.bytes ∧ di1.size = max di.size ns ∧
    fs1.inodes = fs.inodes ∧ fs1.inodeBitmap = fs.inodeBitmap := by
  unfold Inode.increase_size at h
  by_cases hlt : ns < di.size
  · rw [if_pos hlt] at h
    simp only [Option.some.injEq, Prod.mk.injEq] at h
    obtain ⟨h1, h2⟩ := h
    subst h1; subst h2
    exact ⟨rfl, rfl, rfl, rfl, by omega, rfl, rfl⟩
  · rw [if_neg hlt] at h
    cases ha : Inode.allocMany (di.blocks_num_needed ns) fs with
    | none => rw [ha] at h; exact absurd h (by simp)
    | some p =>
      obtain ⟨v, fs2⟩ := p
      rw [ha] at h
      simp only [Option.some.injEq, Prod.mk.injEq] at h
      obtain ⟨h1, h2⟩ := h
      subst h1; subst h2
      have hA := allocMany_spec _ _ _ _ ha
      refine ⟨rfl, rfl, rfl, rfl, ?_, hA.1, hA.2.1⟩
      simp only [DiskInode.increase_size]
      omega

theorem unlinkScan_fst (name : String) (ds : List DirEntry) :
    ∀ acc : List DirEntry × Option Nat,
    (ds.foldl (Inode.unlinkScanStep name) acc).1 =
      acc.1 ++ ds.filter (fun e => !(e.name == name)) := by
  induction ds with
  | nil => intro acc; simp
  | cons e rest ih =>
    intro acc
    by_cases he : e.name = name
    · simp only [List.foldl_cons, Inode.unlinkScanStep, if_pos he,
        List.filter_cons]
      rw [ih]
      simp [he]
    · simp only [List.foldl_cons, Inode.unlinkScanStep, if_neg he,
        List.filter_cons]
      rw [ih]
      simp [he]

theorem unlinkScan_snd_none (name : String) (ds : List DirEntry) :
    ∀ acc : List DirEntry × Option Nat,
    ((ds.foldl (Inode.unlinkScanStep name) acc).2 = none ↔
      acc.2 = none ∧ ∀ e ∈ ds, ¬ e.name = name) := by
  induction ds with
  | nil => intro acc; simp
  | cons e rest ih =>
    intro acc
    by_cases he : e.name = name
    · simp only [List.foldl_cons, Inode.unlinkScanStep, if_pos he, ih,
        List.mem_cons]
      constructor
      · rintro ⟨h1, h2⟩
        exact absurd h1 (by simp)
      · rintro ⟨h1, h2⟩
        exact absurd he (h2 e (Or.inl rfl))
    · simp only [List.foldl_cons, Inode.unlinkScanStep, if_neg he, ih,
        List.mem_cons]
      constructor
      · rintro ⟨h1, h2⟩
        refine ⟨h1, fun x hx => ?_⟩
        rcases hx with hxe | hxr
        · subst hxe; exact he
        · exact h2 x hxr
      · rintro ⟨h1, h2⟩
        exact ⟨h1, fun x hx => h2 x (Or.inr hx)⟩

theorem unlinkScan_snd_some (name : String) (ds : List DirEntry) :
    ∀ (acc : List DirEntry × Option Nat) (t : Nat),
    (ds.foldl (Inode.unlinkScanStep name) acc).2 = some t →
    (∃ e ∈ ds, e.name = name ∧ e.inode_number = t) ∨ acc.2 = some t := by
  induction ds with
  | nil =>
    intro acc t h
    exact Or.inr h
  | cons e rest ih =>
    intro acc t h
    by_cases he : e.name = name
    · simp only [List.foldl_cons, Inode.unlinkScanStep, if_pos he] at h
      rcases ih _ t h with hrest | hacc
      · obtain ⟨x, hx, hx1, hx2⟩ := hrest
        exact Or.inl ⟨x, List.mem_cons_of_mem e hx, hx1, hx2⟩
      · simp only [Option.some.injEq] at hacc
        exact Or.inl ⟨e, List.mem_cons_self e rest, he, hacc⟩
    · simp only [List.foldl_cons, Inode.unlinkScanStep, if_neg he] at h
      rcases ih _ t h with hrest | hacc
      · obtain ⟨x, hx, hx1, hx2⟩ := hrest
        exact Or.inl ⟨x, List.mem_cons_of_mem e hx, hx1, hx2⟩
      · exact Or.inr hacc

theorem writeDirent_entries_append (di : DiskInode) (e : DirEntry) :
    (writeDirent di di.entries.length e).entries = di.entries ++ [e] := by
  simp only [writeDirent]
  exact listSetPad_of_length_eq DirEntry.empty di.entries e

theorem writeDirentsFrom_spec (ds : List DirEntry) :
    ∀ (di : DiskInode) (i : Nat), di.entries.length = i →
    (Inode.writeDirentsFrom di i ds).entries = di.entries ++ ds ∧
    (Inode.writeDirentsFrom di i ds).size = di.size ∧
    (Inode.writeDirentsFrom di i ds).ty = di.ty ∧
    (Inode.writeDirentsFrom di i ds).nlink = di.nlink ∧
    (Inode.writeDirentsFrom di i ds).blocks = di.blocks := by
  induction ds with
  | nil =>
    intro di i h
    simp [Inode.writeDirentsFrom]
  | cons e rest ih =>
    intro di i h
    simp only [Inode.writeDirentsFrom]
    have hE : (writeDirent di i e).entries = di.entries ++ [e] := by
      rw [← h]
      exact writeDirent_entries_append di e
    have hlen : (writeDirent di i e).entries.length = i + 1 := by
      rw [hE, List.length_append, h]
      simp
    have hrest := ih (writeDirent di i e) (i + 1) hlen
    refine ⟨?_, ?_, ?_, ?_, ?_⟩
    · rw [hrest.1, hE, List.append_assoc]
      simp
    · rw [hrest.2.1]; rfl
    · rw [hrest.2.2.1]; rfl
    · rw [hrest.2.2.2.1]; rfl
    · rw [hrest.2.2.2.2]; rfl

theorem direntsRead_of_sync (di : DiskInode)
    (h : di.size = DIRENT_SZ * di.entries.length) :
    direntsRead di = di.entries := by
  simp only [direntsRead, h]
  have h32 : 0 < DIRENT_SZ := by decide
  rw [Nat.mul_div_cancel_left di.entries.length h32]
  exact map_getD_range di.entries DirEntry.empty

/-! Claim theorems. -/

/-- C2: for every byte sequence `buf` and offset (with sufficient free
blocks, i.e. whenever the write completes), `write_at offset buf`
followed by `read_at offset buf.length` on the same inode handle yields
exactly `buf` (and the write reports `buf.length` bytes written). -/
theorem write_then_read_roundtrip (fs : EasyFileSystem)
    (slot offset : Nat) (buf : List Nat) (n : Nat)
    (fs' : EasyFileSystem)
    (hw : Inode.write_at fs slot offset buf = some (n, fs')) :
    n = buf.length ∧
    Inode.read_at fs' slot offset buf.length = buf := by
  unfold Inode.write_at at hw
  split at hw
  · exact absurd hw (by simp)
  · rename_i di1 fs1 hinc
    simp only [Option.some.injEq, Prod.mk.injEq] at hw
    obtain ⟨hn, hfs⟩ := hw
    subst hfs
    have hspec := increase_size_spec fs (getInode fs slot)
      (offset + buf.length) di1 fs1 hinc
    have hge : offset + buf.length ≤ di1.size := by
      rw [hspec.2.2.2.2.1]
      omega
    refine ⟨hn.symm, ?_⟩
    unfold Inode.read_at
    rw [getInode_setInode, if_pos rfl]
    simp only [DiskInode.read_at, DiskInode.write_at]
    by_cases hle : di1.size ≤ offset
    · rw [if_pos hle]
      have hlen0 : buf.length = 0 := by omega
      exact (List.eq_nil_of_length_eq_zero hlen0).symm
    · rw [if_neg hle]
      rw [Nat.min_eq_left (by omega)]
      have hmap : ∀ i ∈ List.range buf.length,
          (writeBytes di1.bytes offset buf).getD (offset + i) 0 =
            buf.getD i 0 := by
        intro i hi
        rw [List.mem_range] at hi
        rw [getD_writeBytes, if_pos ⟨by omega, by omega⟩]
        congr 1
        omega
      rw [List.map_congr_left hmap]
      exact map_getD_range buf 0

/-- A tiny concrete filesystem: a root directory in slot 0 and an empty
file in slot 1, with two free data blocks. -/
def tinyFs : EasyFileSystem :=
  { inodes := [DiskInode.initInode DiskInodeType.directory,
               DiskInode.initInode DiskInodeType.file],
    inodeBitmap := [true, true],
    dataBitmap := [false, false] }

/-- Witness for C2: on a concrete filesystem, writing bytes 5 and 6 at
offset 1 of the file in slot 1 reports 2 bytes written, and reading them
back returns exactly those bytes. -/
theorem write_then_read_roundtrip_witness :
    Inode.write_at tinyFs 1 1 [5, 6] =
      some (2, ((Inode.write_at tinyFs 1 1 [5, 6]).getD (0, tinyFs)).2) ∧
    Inode.read_at ((Inode.write_at tinyFs 1 1 [5, 6]).getD (0, tinyFs)).2
      1 1 2 = [5, 6] := by
  refine ⟨by decide, ?_⟩
  exact (write_then_read_roundtrip tinyFs 1 1 [5, 6] 2
    ((Inode.write_at tinyFs 1 1 [5, 6]).getD (0, tinyFs)).2 (by decide)).2

theorem findIdx?_getD {α : Type} (p : α → Bool) (l : List α) (d : α) :
    ∀ i : Nat, l.findIdx? p = some i → p (l.getD i d) = true := by
  induction l with
  | nil =>
    intro i h
    rw [List.findIdx?_nil] at h
    exact absurd h (by simp)
  | cons x xs ih =>
    intro i h
    rw [List.findIdx?_cons] at h
    by_cases hx : p x
    · rw [if_pos hx] at h
      simp only [Option.some.injEq] at h
      subst h
      simpa using hx
    · rw [if_neg hx, List.findIdx?_succ] at h
      cases hi : xs.findIdx? p with
      | none => rw [hi] at h; simp at h
      | some j =>
        rw [hi] at h
        simp only [Option.map_some', Option.some.injEq] at h
        subst h
        rw [List.getD_cons_succ]
        exact ih j hi

theorem alloc_inode_spec (fs : EasyFileSystem) (i : Nat)
    (fs1 : EasyFileSystem) (h : alloc_inode fs = some (i, fs1)) :
    fs1.inodes = fs.inodes ∧ fs1.dataBitmap = fs.dataBitmap ∧
    fs.inodeBitmap.getD i false = false := by
  unfold alloc_inode at h
  cases hb : bitmap_alloc fs.inodeBitmap with
  | none => rw [hb] at h; exact absurd h (by simp)
  | some p =>
    obtain ⟨j, bm⟩ := p
    rw [hb] at h
    simp only [Option.some.injEq, Prod.mk.injEq] at h
    obtain ⟨hj, hfs⟩ := h
    subst hj
    subst hfs
    refine ⟨rfl, rfl, ?_⟩
    unfold bitmap_alloc at hb
    cases hf : fs.inodeBitmap.findIdx? (fun b => !b) with
    | none => rw [hf] at hb; exact absurd hb (by simp)
    | some k =>
      rw [hf] at hb
      simp only [Option.some.injEq, Prod.mk.injEq] at hb
      have hk := findIdx?_getD (fun b => !b) fs.inodeBitmap false k hf
      simp only [Bool.not_eq_true'] at hk
      rw [← hb.1]
      exact hk

theorem getInode_of_inodes_eq (fs fs1 : EasyFileSystem) (j : Nat)
    (h : fs1.inodes = fs.inodes) : getInode fs1 j = getInode fs j := by
  simp [getInode, h]

/-- A consistent directory receiver: the inode at `dir` is a directory
whose byte size agrees with its packed entry sequence, and whose own
slot is marked allocated in the inode bitmap. -/
def DirOk (fs : EasyFileSystem) (dir : Nat) : Prop :=
  (getInode fs dir).ty = DiskInodeType.directory ∧
  (getInode fs dir).size = DIRENT_SZ * (getInode fs dir).entries.length ∧
  fs.inodeBitmap.getD dir false = true

instance (fs : EasyFileSystem) (dir : Nat) : Decidable (DirOk fs dir) := by
  unfold DirOk
  infer_instance

/-- C1: after `create name` succeeds on a consistent directory, `find
name` returns a handle whose inode id equals the created handle's, and a
second `create name` on the same directory returns the Rust `None` with
the filesystem state — in particular the inode-slot allocator —
completely unchanged by the failing call. -/
theorem create_then_find (fs : EasyFileSystem) (dir : Nat) (name : String)
    (h : Nat) (fs' : EasyFileSystem) (hok : DirOk fs dir)
    (hc : Inode.create fs dir name = some (some h, fs')) :
    Inode.find fs' dir name = some (some h) ∧
    Inode.create fs' dir name = some (none, fs') := by
  obtain ⟨hdir, hsync, hbit⟩ := hok
  simp only [Inode.create] at hc
  split at hc
  · exact absurd hc (by simp)
  · exact absurd hc (by simp)
  · rename_i hfound
    split at hc
    · exact absurd hc (by simp)
    · rename_i newId fs1 halloc
      split at hc
      · exact absurd hc (by simp)
      · rename_i root1 fs3 hinc
        simp only [Option.some.injEq, Prod.mk.injEq] at hc
        obtain ⟨hid, hfs'⟩ := hc
        subst hid
        subst hfs'
        obtain ⟨hai, had, hnew⟩ := alloc_inode_spec fs newId fs1 halloc
        have hne : dir ≠ newId := by
          intro he
          rw [← he] at hnew
          rw [hnew] at hbit
          exact absurd hbit (by simp)
        have hroot2 : getInode
            (setInode fs1 newId (DiskInode.initInode DiskInodeType.file))
            dir = getInode fs dir := by
          rw [getInode_setInode, if_neg hne]
          exact getInode_of_inodes_eq fs fs1 dir hai
        rw [hroot2] at hinc ⊢
        have hspec := increase_size_spec _ _ _ _ _ hinc
        have hfc : (getInode fs dir).size / DIRENT_SZ =
            (getInode fs dir).entries.length := by
          rw [hsync]
          exact Nat.mul_div_cancel_left _ (by decide)
        have hsize1 : root1.size =
            ((getInode fs dir).entries.length + 1) * DIRENT_SZ := by
          rw [hspec.2.2.2.2.1, hfc, hsync]
          simp only [DIRENT_SZ]
          omega
        have hent1 : root1.entries = (getInode fs dir).entries :=
          hspec.2.2.1
        have hfcroot : (getInode fs dir).size / DIRENT_SZ =
            root1.entries.length := by
          rw [hent1, hfc]
        have hroot4e : (writeDirent root1
            ((getInode fs dir).size / DIRENT_SZ)
            (DirEntry.mk name newId)).entries =
            (getInode fs dir).entries ++ [DirEntry.mk name newId] := by
          rw [hfcroot, writeDirent_entries_append, hent1]
        have hfs'dir : getInode (setInode fs3 dir
            (writeDirent root1 ((getInode fs dir).size / DIRENT_SZ)
              (DirEntry.mk name newId))) dir =
            writeDirent root1 ((getInode fs dir).size / DIRENT_SZ)
              (DirEntry.mk name newId) := by
          rw [getInode_setInode, if_pos rfl]
        have hty4 : (writeDirent root1 ((getInode fs dir).size / DIRENT_SZ)
            (DirEntry.mk name newId)).ty = DiskInodeType.directory := by
          simp only [writeDirent]
          rw [hspec.1, hdir]
        have hsync4 : (writeDirent root1
            ((getInode fs dir).size / DIRENT_SZ)
            (DirEntry.mk name newId)).size = DIRENT_SZ *
            (writeDirent root1 ((getInode fs dir).size / DIRENT_SZ)
              (DirEntry.mk name newId)).entries.length := by
          rw [hroot4e]
          have : (writeDirent root1 ((getInode fs dir).size / DIRENT_SZ)
              (DirEntry.mk name newId)).size = root1.size := rfl
          rw [this, hsize1]
          simp only [List.length_append, List.length_cons,
            List.length_nil]
          ring
        have hpreNone : (getInode fs dir).entries.findSome?
            (fun d => if d.name = name
              then some d.inode_number else none) = none := by
          unfold findInodeId at hfound
          rw [if_pos hdir] at hfound
          simp only [Option.some.injEq] at hfound
          rw [direntsRead_of_sync _ hsync] at hfound
          exact hfound
        have hfind4 : findInodeId (writeDirent root1
            ((getInode fs dir).size / DIRENT_SZ)
            (DirEntry.mk name newId)) name = some (some newId) := by
          unfold findInodeId
          rw [if_pos hty4, direntsRead_of_sync _ hsync4, hroot4e,
            findSome?_append_none _ _ _ hpreNone]
          simp
        constructor
        · unfold Inode.find
          rw [hfs'dir]
          exact hfind4
        · simp only [Inode.create]
          rw [hfs'dir, hfind4]

/-- A concrete filesystem holding only a root directory in slot 0, with
free inode slots and data blocks. -/
def rootOnlyFs : EasyFileSystem :=
  { inodes := [DiskInode.initInode DiskInodeType.directory],
    inodeBitmap := [true, false, false, false],
    dataBitmap := [false, false, false, false] }

/-- Witness for C1: on the concrete root-only filesystem, creating "a"
succeeds with inode id 1; finding "a" afterwards returns the same id and
a second create of "a" fails with the state unchanged. -/
theorem create_then_find_witness :
    DirOk rootOnlyFs 0 ∧
    Inode.create rootOnlyFs 0 "a" =
      some (some 1,
        ((Inode.create rootOnlyFs 0 "a").getD (none, rootOnlyFs)).2) ∧
    Inode.find ((Inode.create rootOnlyFs 0 "a").getD
      (none, rootOnlyFs)).2 0 "a" = some (some 1) ∧
    Inode.create ((Inode.create rootOnlyFs 0 "a").getD
      (none, rootOnlyFs)).2 0 "a" =
      some (none,
        ((Inode.create rootOnlyFs 0 "a").getD (none, rootOnlyFs)).2) := by
  refine ⟨by decide, by decide, ?_, ?_⟩
  · exact (create_then_find rootOnlyFs 0 "a" 1
      ((Inode.create rootOnlyFs 0 "a").getD (none, rootOnlyFs)).2
      (by decide) (by decide)).1
  · exact (create_then_find rootOnlyFs 0 "a" 1
      ((Inode.create rootOnlyFs 0 "a").getD (none, rootOnlyFs)).2
      (by decide) (by decide)).2

theorem writeDirent_size (di : DiskInode) (i : Nat) (e : DirEntry) :
    (writeDirent di i e).size = di.size := rfl

theorem writeDirent_ty (di : DiskInode) (i : Nat) (e : DirEntry) :
    (writeDirent di i e).ty = di.ty := rfl

theorem writeDirent_nlink (di : DiskInode) (i : Nat) (e : DirEntry) :
    (writeDirent di i e).nlink = di.nlink := rfl

theorem link_effects (fs : EasyFileSystem) (dir : Nat)
    (old_name new_name : String) (t : Nat) (r : Int)
    (fs' : EasyFileSystem)
    (hsync : (getInode fs dir).size =
      DIRENT_SZ * (getInode fs dir).entries.length)
    (hne : old_name ≠ new_name)
    (hfind : Inode.find fs dir old_name = some (some t))
    (hl : Inode.link fs dir old_name new_name = some (r, fs')) :
    r = 0 ∧
    (getInode fs' dir).entries =
      (getInode fs dir).entries ++ [DirEntry.mk new_name t] ∧
    (getInode fs' t).nlink = (getInode fs t).nlink + 1 ∧
    (∀ j, j ≠ t → (getInode fs' j).nlink = (getInode fs j).nlink) := by
  simp only [Inode.link] at hl
  rw [if_neg hne] at hl
  split at hl
  · rename_i hfn
    rw [hfind] at hfn
    exact absurd hfn (by simp)
  · rename_i hfn
    rw [hfind] at hfn
    exact absurd hfn (by simp)
  · rename_i t' hfn
    rw [hfind] at hfn
    simp only [Option.some.injEq] at hfn
    subst hfn
    split at hl
    · exact absurd hl (by simp)
    · rename_i root1 fs1 hinc
      simp only [Option.some.injEq, Prod.mk.injEq] at hl
      obtain ⟨hr, hfs'⟩ := hl
      subst hfs'
      have hspec := increase_size_spec _ _ _ _ _ hinc
      have hfc : (getInode fs dir).size / DIRENT_SZ =
          (getInode fs dir).entries.length := by
        rw [hsync]
        exact Nat.mul_div_cancel_left _ (by decide)
      have hent1 : root1.entries = (getInode fs dir).entries :=
        hspec.2.2.1
      have hfcroot : (getInode fs dir).size / DIRENT_SZ =
          root1.entries.length := by
        rw [hent1, hfc]
      have hroot2e : (writeDirent root1
          ((getInode fs dir).size / DIRENT_SZ)
          (DirEntry.mk new_name t)).entries =
          (getInode fs dir).entries ++ [DirEntry.mk new_name t] := by
        rw [hfcroot, writeDirent_entries_append, hent1]
      have hinodes1 : fs1.inodes = fs.inodes := hspec.2.2.2.2.2.1
      refine ⟨hr.symm, ?_, ?_, ?_⟩
      · by_cases hdt : t = dir
        · subst hdt
          rw [getInode_setInode, if_pos rfl]
          rw [getInode_setInode, if_pos rfl] at *
          exact hroot2e
        · rw [getInode_setInode, if_neg (fun he => hdt he.symm),
            getInode_setInode, if_pos rfl]
          exact hroot2e
      · rw [getInode_setInode, if_pos rfl]
        by_cases hdt : t = dir
        · subst hdt
          rw [getInode_setInode, if_pos rfl, writeDirent_nlink,
            hspec.2.1]
        · rw [getInode_setInode, if_neg hdt,
            getInode_of_inodes_eq fs fs1 t hinodes1]
      · intro j hj
        rw [getInode_setInode, if_neg hj]
        by_cases hjd : j = dir
        · subst hjd
          rw [getInode_setInode, if_pos rfl, writeDirent_nlink,
            hspec.2.1]
        · rw [getInode_setInode, if_neg hjd,
            getInode_of_inodes_eq fs fs1 j hinodes1]

/-- C5: `link old_name new_name` returns the failure status -1 when the
two names are equal or when `old_name` does not resolve in the
directory; otherwise it returns 0 after appending exactly one new
directory entry mapping `new_name` to the slot `old_name` resolves to
and incrementing that slot's nlink by exactly one (no other slot's nlink
changes). -/
theorem link_status_and_effects (fs : EasyFileSystem) (dir : Nat)
    (old_name new_name : String) (r : Int) (fs' : EasyFileSystem)
    (hsync : (getInode fs dir).size =
      DIRENT_SZ * (getInode fs dir).entries.length)
    (hl : Inode.link fs dir old_name new_name = some (r, fs')) :
    ((old_name = new_name ∨ Inode.find fs dir old_name = some none) →
      r = -1 ∧ fs' = fs) ∧
    (∀ t, old_name ≠ new_name →
      Inode.find fs dir old_name = some (some t) →
      r = 0 ∧
      (getInode fs' dir).entries =
        (getInode fs dir).entries ++ [DirEntry.mk new_name t] ∧
      (getInode fs' t).nlink = (getInode fs t).nlink + 1 ∧
      ∀ j, j ≠ t → (getInode fs' j).nlink = (getInode fs j).nlink) := by
  constructor
  · intro hcase
    by_cases heq : old_name = new_name
    · simp only [Inode.link, if_pos heq, Option.some.injEq,
        Prod.mk.injEq] at hl
      exact ⟨hl.1.symm, hl.2.symm⟩
    · have hfn : Inode.find fs dir old_name = some none := by
        rcases hcase with h1 | h2
        · exact absurd h1 heq
        · exact h2
      simp only [Inode.link, if_neg heq, hfn, Option.some.injEq,
        Prod.mk.injEq] at hl
      exact ⟨hl.1.symm, hl.2.symm⟩
  · intro t hne hfind
    exact link_effects fs dir old_name new_name t r fs' hsync hne
      hfind hl

/-- A concrete filesystem: root directory (slot 0) holding one entry
"a" for the file in slot 1, which has content bytes 7, 8, 9. -/
def oneFileFs : EasyFileSystem :=
  { inodes :=
      [{ size := 32, ty := DiskInodeType.directory, nlink := 1,
         bytes := [], entries := [DirEntry.mk "a" 1], blocks := [0] },
       { size := 3, ty := DiskInodeType.file, nlink := 1,
         bytes := [7, 8, 9], entries := [], blocks := [1] }],
    inodeBitmap := [true, true, false],
    dataBitmap := [true, true, false, false] }

/-- Witness for C5: linking "a" to "b" on the concrete one-file
filesystem returns 0, appends the entry ("b", 1), and bumps slot 1's
nlink from 1 to 2 while slot 0's nlink is untouched. -/
theorem link_status_and_effects_witness :
    (getInode oneFileFs 0).size =
      DIRENT_SZ * (getInode oneFileFs 0).entries.length ∧
    Inode.link oneFileFs 0 "a" "b" =
      some (0, ((Inode.link oneFileFs 0 "a" "b").getD
        (-1, oneFileFs)).2) ∧
    (getInode ((Inode.link oneFileFs 0 "a" "b").getD
        (-1, oneFileFs)).2 0).entries =
      (getInode oneFileFs 0).entries ++ [DirEntry.mk "b" 1] ∧
    (getInode ((Inode.link oneFileFs 0 "a" "b").getD
        (-1, oneFileFs)).2 1).nlink = (getInode oneFileFs 1).nlink + 1 ∧
    (getInode ((Inode.link oneFileFs 0 "a" "b").getD
        (-1, oneFileFs)).2 0).nlink = (getInode oneFileFs 0).nlink := by
  have h := link_status_and_effects oneFileFs 0 "a" "b" 0
    ((Inode.link oneFileFs 0 "a" "b").getD (-1, oneFileFs)).2
    (by decide) (by decide)
  have h2 := h.2 1 (by decide) (by decide)
  exact ⟨by decide, by decide, h2.2.1, h2.2.2.1,
    h2.2.2.2 0 (by decide)⟩

/-- C9: `link` performs no existence check on `new_name`: whenever
`old_name` resolves and the two names differ, `link` succeeds and
appends an entry for `new_name` even when the directory already contains
an entry with that name, so the directory ends up holding two entries
named `new_name`. -/
theorem link_allows_duplicate_names (fs : EasyFileSystem) (dir : Nat)
    (old_name new_name : String) (t : Nat) (r : Int)
    (fs' : EasyFileSystem)
    (hsync : (getInode fs dir).size =
      DIRENT_SZ * (getInode fs dir).entries.length)
    (hne : old_name ≠ new_name)
    (hfind : Inode.find fs dir old_name = some (some t))
    (hpres : new_name ∈ Inode.ls fs dir)
    (hl : Inode.link fs dir old_name new_name = some (r, fs')) :
    r = 0 ∧
    2 ≤ (getInode fs' dir).entries.countP
      (fun e => e.name == new_name) := by
  have h := link_effects fs dir old_name new_name t r fs' hsync hne
    hfind hl
  refine ⟨h.1, ?_⟩
  rw [h.2.1, List.countP_append]
  have h1 : 0 < (getInode fs dir).entries.countP
      (fun e => e.name == new_name) := by
    rw [List.countP_pos_iff]
    unfold Inode.ls at hpres
    rw [direntsRead_of_sync _ hsync, List.mem_map] at hpres
    obtain ⟨e, he, hename⟩ := hpres
    exact ⟨e, he, by simp [hename]⟩
  have h2 : List.countP (fun e => e.name == new_name)
      [DirEntry.mk new_name t] = 1 := by simp
  omega

/-- A concrete filesystem: root directory (slot 0) holding entries "a"
and "b", both resolving to the file in slot 1. -/
def dupNameFs : EasyFileSystem :=
  { inodes :=
      [{ size := 64, ty := DiskInodeType.directory, nlink := 1,
         bytes := [],
         entries := [DirEntry.mk "a" 1, DirEntry.mk "b" 1],
         blocks := [0] },
       { size := 3, ty := DiskInodeType.file, nlink := 2,
         bytes := [7, 8, 9], entries := [], blocks := [1] }],
    inodeBitmap := [true, true, false],
    dataBitmap := [true, true, false, false] }

/-- Witness for C9: on a directory already holding entries "a" and "b"
(both for slot 1), linking "a" to "b" succeeds and leaves two entries
named "b". -/
theorem link_allows_duplicate_names_witness :
    Inode.link dupNameFs 0 "a" "b" =
      some (0, ((Inode.link dupNameFs 0 "a" "b").getD
        (-1, rootOnlyFs)).2) ∧
    2 ≤ (getInode ((Inode.link dupNameFs 0 "a" "b").getD
      (-1, rootOnlyFs)).2 0).entries.countP
      (fun e => e.name == "b") := by
  refine ⟨by decide, ?_⟩
  exact (link_allows_duplicate_names dupNameFs 0 "a" "b" 1 0
    ((Inode.link dupNameFs 0 "a" "b").getD (-1, rootOnlyFs)).2
    (by decide) (by decide) (by decide) (by decide) (by decide)).2


theorem unlinkTargetUpdate_spec (fs : EasyFileSystem) (t : Nat)
    (fs4 : EasyFileSystem)
    (h : Inode.unlinkTargetUpdate fs t = some fs4) :
    (∀ j, j ≠ t → getInode fs4 j = getInode fs j) ∧
    (getInode fs4 t).nlink = (getInode fs t).nlink - 1 := by
  simp only [Inode.unlinkTargetUpdate, DiskInode.clear_size] at h
  split at h
  · split at h
    · have hdm := deallocMany_spec _ _ _ h
      constructor
      · intro j hj
        rw [getInode_of_inodes_eq _ _ j hdm.1, getInode_setInode,
          if_neg hj]
      · rw [getInode_of_inodes_eq _ _ t hdm.1, getInode_setInode,
          if_pos rfl]
    · exact absurd h (by simp)
  · simp only [Option.some.injEq] at h
    subst h
    constructor
    · intro j hj
      rw [getInode_setInode, if_neg hj]
    · rw [getInode_setInode, if_pos rfl]

theorem unlink_cases (fs : EasyFileSystem) (dir : Nat) (name : String)
    (r : Int) (fs' : EasyFileSystem)
    (hu : Inode.unlink fs dir name = some (r, fs')) :
    ∃ dnew : DiskInode,
      dnew.entries =
        (Inode.unlinkScan (direntsRead (getInode fs dir)) name).1 ∧
      dnew.size = DIRENT_SZ * dnew.entries.length ∧
      dnew.ty = (getInode fs dir).ty ∧
      dnew.nlink = (getInode fs dir).nlink ∧
      (((Inode.unlinkScan (direntsRead (getInode fs dir)) name).2 =
            none ∧
          r = -1 ∧ getInode fs' dir = dnew ∧
          ∀ j, j ≠ dir → getInode fs' j = getInode fs j) ∨
        (∃ t,
          (Inode.unlinkScan (direntsRead (getInode fs dir)) name).2 =
            some t ∧
          r = 0 ∧ (t ≠ dir → getInode fs' dir = dnew))) := by
  simp only [Inode.unlink, DiskInode.clear_size] at hu
  split at hu
  · cases hd : Inode.deallocMany (getInode fs dir).blocks fs with
    | none => rw [hd] at hu; exact absurd hu (by simp)
    | some fs1 =>
      rw [hd] at hu
      simp only [] at hu
      cases hin : Inode.increase_size fs1
          { size := 0, ty := (getInode fs dir).ty,
            nlink := (getInode fs dir).nlink, bytes := [],
            entries := [], blocks := [] }
          ((Inode.unlinkScan (direntsRead (getInode fs dir))
            name).1.length * DIRENT_SZ) with
      | none => rw [hin] at hu; exact absurd hu (by simp)
      | some p =>
        obtain ⟨root1, fs2⟩ := p
        rw [hin] at hu
        simp only [] at hu
        have hdm := deallocMany_spec _ _ _ hd
        have hspec := increase_size_spec _ _ _ _ _ hin
        have hent1 : root1.entries = [] := hspec.2.2.1
        have hwd := writeDirentsFrom_spec
          ((Inode.unlinkScan (direntsRead (getInode fs dir)) name).1)
          root1 0 (by rw [hent1]; rfl)
        refine ⟨Inode.writeDirentsFrom root1 0
          ((Inode.unlinkScan (direntsRead (getInode fs dir)) name).1),
          ?_, ?_, ?_, ?_, ?_⟩
        · rw [hwd.1, hent1]
          simp
        · rw [hwd.2.1, hspec.2.2.2.2.1, hwd.1, hent1]
          simp [Nat.mul_comm]
        · rw [hwd.2.2.1, hspec.1]
        · rw [hwd.2.2.2.1, hspec.2.1]
        · cases hsc : (Inode.unlinkScan (direntsRead (getInode fs dir))
              name).2 with
          | none =>
            rw [hsc] at hu
            simp only [Option.some.injEq, Prod.mk.injEq] at hu
            obtain ⟨hr, hfs⟩ := hu
            subst hfs
            refine Or.inl ⟨rfl, hr.symm, ?_, ?_⟩
            · rw [getInode_setInode, if_pos rfl]
            · intro j hj
              rw [getInode_setInode, if_neg hj,
                getInode_of_inodes_eq fs1 fs2 j hspec.2.2.2.2.2.1,
                getInode_of_inodes_eq fs fs1 j hdm.1]
          | some t =>
            rw [hsc] at hu
            simp only [] at hu
            cases htu : Inode.unlinkTargetUpdate
                (setInode fs2 dir (Inode.writeDirentsFrom root1 0
                  ((Inode.unlinkScan (direntsRead (getInode fs dir))
                    name).1))) t with
            | none => rw [htu] at hu; exact absurd hu (by simp)
            | some fs4 =>
              rw [htu] at hu
              simp only [Option.some.injEq, Prod.mk.injEq] at hu
              obtain ⟨hr, hfs⟩ := hu
              subst hfs
              have hts := unlinkTargetUpdate_spec _ _ _ htu
              refine Or.inr ⟨t, rfl, hr.symm, fun htd => ?_⟩
              rw [hts.1 dir (fun he => htd he.symm),
                getInode_setInode, if_pos rfl]
  · exact absurd hu (by simp)

/-- C6: when `unlink name` completes (returns a status rather than
aborting), its status is -1 exactly when no directory entry with that
name exists, and 0 (success) exactly when one does; -1 and 0 are the
only statuses. -/
theorem unlink_status_iff (fs : EasyFileSystem) (dir : Nat)
    (name : String) (r : Int) (fs' : EasyFileSystem)
    (hu : Inode.unlink fs dir name = some (r, fs')) :
    (r = -1 ∨ r = 0) ∧
    (r = -1 ↔ ∀ e ∈ direntsRead (getInode fs dir), ¬ e.name = name) := by
  obtain ⟨dnew, _, _, _, _, hcase⟩ := unlink_cases fs dir name r fs' hu
  rcases hcase with ⟨hnone, hr, _, _⟩ | ⟨t, hsome, hr, _⟩
  · subst hr
    refine ⟨Or.inl rfl, iff_of_true rfl ?_⟩
    simp only [Inode.unlinkScan] at hnone
    exact ((unlinkScan_snd_none name _ ([], none)).mp hnone).2
  · subst hr
    refine ⟨Or.inr rfl, iff_of_false (by decide) ?_⟩
    intro hall
    have h0 : (Inode.unlinkScan (direntsRead (getInode fs dir))
        name).2 = none := by
      simp only [Inode.unlinkScan]
      exact (unlinkScan_snd_none name _ ([], none)).mpr ⟨rfl, hall⟩
    exact absurd (h0.symm.trans hsome) (by simp)

/-- Witness for C6: on the concrete one-file filesystem, unlink of the
absent name "zzz" completes with -1 and unlink of the present name "a"
completes with 0 (the iff rules out -1 for it). -/
theorem unlink_status_iff_witness :
    Inode.unlink oneFileFs 0 "zzz" =
      some (-1, ((Inode.unlink oneFileFs 0 "zzz").getD
        (0, oneFileFs)).2) ∧
    Inode.unlink oneFileFs 0 "a" =
      some (0, ((Inode.unlink oneFileFs 0 "a").getD
        (-1, oneFileFs)).2) ∧
    ((-1 : Int) = -1 ∨ (-1 : Int) = 0) ∧
    ¬ ((0 : Int) = -1) := by
  refine ⟨by decide, by decide, ?_, ?_⟩
  · exact (unlink_status_iff oneFileFs 0 "zzz" (-1)
      ((Inode.unlink oneFileFs 0 "zzz").getD (0, oneFileFs)).2
      (by decide)).1
  · intro h0
    have h := (unlink_status_iff oneFileFs 0 "a" 0
      ((Inode.unlink oneFileFs 0 "a").getD (-1, oneFileFs)).2
      (by decide)).2
    exact (h.mp h0) (DirEntry.mk "a" 1) (by decide) rfl

/-- C10: when `name` is absent from a directory (whose size is a whole
number of entry records), `unlink name` completes with the error status
-1 and leaves the directory's observable contents unchanged: the listing
is the same, the size is the same, and no inode's nlink changes — even
though the rebuild deallocates and rewrites the directory's block
structure internally. -/
theorem unlink_absent_preserves_directory (fs : EasyFileSystem)
    (dir : Nat) (name : String) (r : Int) (fs' : EasyFileSystem)
    (hab : ∀ e ∈ direntsRead (getInode fs dir), ¬ e.name = name)
    (hmul : DIRENT_SZ ∣ (getInode fs dir).size)
    (hu : Inode.unlink fs dir name = some (r, fs')) :
    r = -1 ∧ Inode.ls fs' dir = Inode.ls fs dir ∧
    (getInode fs' dir).size = (getInode fs dir).size ∧
    ∀ j, (getInode fs' j).nlink = (getInode fs j).nlink := by
  obtain ⟨dnew, hent, hsize, hty, hnl, hcase⟩ :=
    unlink_cases fs dir name r fs' hu
  have hnone : (Inode.unlinkScan (direntsRead (getInode fs dir))
      name).2 = none := by
    simp only [Inode.unlinkScan]
    exact (unlinkScan_snd_none name _ ([], none)).mpr ⟨rfl, hab⟩
  rcases hcase with ⟨_, hr, hdir', hother⟩ | ⟨t, hsome, _, _⟩
  swap
  · exact absurd (hnone.symm.trans hsome) (by simp)
  have hkept : (Inode.unlinkScan (direntsRead (getInode fs dir))
      name).1 = direntsRead (getInode fs dir) := by
    simp only [Inode.unlinkScan]
    rw [unlinkScan_fst]
    simp only [List.nil_append]
    apply List.filter_eq_self.mpr
    intro e he
    have hne := hab e he
    simp [hne]
  refine ⟨hr, ?_, ?_, ?_⟩
  · unfold Inode.ls
    rw [hdir', direntsRead_of_sync dnew hsize, hent, hkept]
  · rw [hdir', hsize, hent, hkept]
    have hlen : (direntsRead (getInode fs dir)).length =
        (getInode fs dir).size / DIRENT_SZ := by
      simp [direntsRead]
    rw [hlen]
    exact Nat.mul_div_cancel' hmul
  · intro j
    by_cases hj : j = dir
    · subst hj
      rw [hdir', hnl]
    · rw [hother j hj]

/-- Witness for C10: unlinking the absent name "zzz" on the concrete
one-file filesystem returns -1 and preserves the listing, the
directory's size, and the file's nlink. -/
theorem unlink_absent_preserves_directory_witness :
    Inode.unlink oneFileFs 0 "zzz" =
      some (-1, ((Inode.unlink oneFileFs 0 "zzz").getD
        (0, oneFileFs)).2) ∧
    Inode.ls ((Inode.unlink oneFileFs 0 "zzz").getD
      (0, oneFileFs)).2 0 = Inode.ls oneFileFs 0 ∧
    (getInode ((Inode.unlink oneFileFs 0 "zzz").getD
      (0, oneFileFs)).2 0).size = (getInode oneFileFs 0).size ∧
    (getInode ((Inode.unlink oneFileFs 0 "zzz").getD
      (0, oneFileFs)).2 1).nlink = (getInode oneFileFs 1).nlink := by
  have h := unlink_absent_preserves_directory oneFileFs 0 "zzz" (-1)
    ((Inode.unlink oneFileFs 0 "zzz").getD (0, oneFileFs)).2
    (by decide) (by decide) (by decide)
  exact ⟨by decide, h.2.1, h.2.2.1, h.2.2.2 1⟩

/-- A directory state with a duplicated name, reached from the
root-only filesystem by create "x", create "a", then link "x" "a"
(link appends a second entry named "a" — see C9). -/
def dupReached : Option EasyFileSystem :=
  (Inode.create rootOnlyFs 0 "x").bind fun p =>
    match p.1 with
    | none => none
    | some _ =>
      (Inode.create p.2 0 "a").bind fun q =>
        match q.1 with
        | none => none
        | some _ =>
          (Inode.link q.2 0 "x" "a").bind fun l =>
            if l.1 = 0 then some l.2 else none

/-- Counterexample to C4 as stated: in a reachable directory state
holding three entries, two of which are named "a", unlink "a" succeeds
but removes both matching entries (the entry count drops from 3 to 1,
not to 2), so it does not remove exactly the one matching entry. -/
theorem unlink_removes_one_counterexample :
    dupReached.map (fun fs => (getInode fs 0).entries) =
      some [DirEntry.mk "x" 1, DirEntry.mk "a" 2, DirEntry.mk "a" 1] ∧
    (dupReached.bind fun fs => (Inode.unlink fs 0 "a").map
      fun p => (p.1, (getInode p.2 0).entries)) =
      some (0, [DirEntry.mk "x" 1]) ∧
    ¬ ((dupReached.bind fun fs => (Inode.unlink fs 0 "a").map
      fun p => (getInode p.2 0).entries.length) = some 2) := by
  refine ⟨by decide, by decide, by decide⟩

/-- C4 amended: when `unlink name` completes on a size-consistent
directory none of whose matching entries point at the directory itself,
it removes every entry whose name matches (exactly one when the
directory's names are distinct), preserving the relative order of all
surviving entries, and the subsequent listing is the surviving names in
order. -/
theorem unlink_removes_all_matching (fs : EasyFileSystem) (dir : Nat)
    (name : String) (r : Int) (fs' : EasyFileSystem)
    (hsync : (getInode fs dir).size =
      DIRENT_SZ * (getInode fs dir).entries.length)
    (hnotself : ∀ e ∈ (getInode fs dir).entries,
      e.name = name → e.inode_number ≠ dir)
    (hu : Inode.unlink fs dir name = some (r, fs')) :
    (getInode fs' dir).entries =
      (getInode fs dir).entries.filter (fun e => !(e.name == name)) ∧
    Inode.ls fs' dir = ((getInode fs dir).entries.filter
      (fun e => !(e.name == name))).map (fun e => e.name) := by
  obtain ⟨dnew, hent, hsize, hty, hnl, hcase⟩ :=
    unlink_cases fs dir name r fs' hu
  have hdr : direntsRead (getInode fs dir) = (getInode fs dir).entries :=
    direntsRead_of_sync _ hsync
  have hkept : (Inode.unlinkScan (direntsRead (getInode fs dir))
      name).1 = (getInode fs dir).entries.filter
      (fun e => !(e.name == name)) := by
    simp only [Inode.unlinkScan]
    rw [unlinkScan_fst, hdr]
    simp
  have hdir' : getInode fs' dir = dnew := by
    rcases hcase with ⟨_, _, hd, _⟩ | ⟨t, hsome, _, hd⟩
    · exact hd
    · apply hd
      have hx := unlinkScan_snd_some name
        (direntsRead (getInode fs dir)) ([], none) t
        (by simpa [Inode.unlinkScan] using hsome)
      rcases hx with ⟨e, he, hen, hnum⟩ | habs
      · rw [hdr] at he
        exact hnum ▸ hnotself e he hen
      · exact absurd habs (by simp)
  refine ⟨?_, ?_⟩
  · rw [hdir', hent, hkept]
  · unfold Inode.ls
    rw [hdir', direntsRead_of_sync dnew hsize, hent, hkept]

/-- The directory listing scenario of the spec: a root directory with
entries "x", "y", "z" created in that order, each a file with no
content. -/
def xyzFs : EasyFileSystem :=
  { inodes :=
      [{ size := 96, ty := DiskInodeType.directory, nlink := 1,
         bytes := [],
         entries := [DirEntry.mk "x" 1, DirEntry.mk "y" 2,
           DirEntry.mk "z" 3],
         blocks := [0] },
       DiskInode.initInode DiskInodeType.file,
       DiskInode.initInode DiskInodeType.file,
       DiskInode.initInode DiskInodeType.file],
    inodeBitmap := [true, true, true, true],
    dataBitmap := [true, false, false] }

/-- Witness for the amended C4: unlinking "y" from a directory listing
["x", "y", "z"] yields the listing ["x", "z"] — survivors in their
original relative order, the removed entry compacted out. -/
theorem unlink_removes_all_matching_witness :
    Inode.unlink xyzFs 0 "y" =
      some (0, ((Inode.unlink xyzFs 0 "y").getD (-1, xyzFs)).2) ∧
    Inode.ls xyzFs 0 = ["x", "y", "z"] ∧
    Inode.ls ((Inode.unlink xyzFs 0 "y").getD (-1, xyzFs)).2 0 =
      ["x", "z"] := by
  have h := unlink_removes_all_matching xyzFs 0 "y" 0
    ((Inode.unlink xyzFs 0 "y").getD (-1, xyzFs)).2
    (by decide) (by decide) (by decide)
  exact ⟨by decide, by decide, h.2.trans (by decide)⟩

/-- A concrete filesystem whose data-block allocator is exhausted: the
data bitmap is fully set.  Slot 0 is an empty root directory, slot 1 an
empty file; an inode slot is still free. -/
def exhaustedFs : EasyFileSystem :=
  { inodes := [DiskInode.initInode DiskInodeType.directory,
               DiskInode.initInode DiskInodeType.file],
    inodeBitmap := [true, true, false],
    dataBitmap := [true] }

/-- Counterexample to C7 as stated: with the data-block allocator
exhausted, a size-growing write_at and a create both abort (the panic
outcome `none`) instead of surfacing an explicit failure result to the
caller — increase_size has no failure channel through which exhaustion
could propagate. -/
theorem exhaustion_surfaces_failure_counterexample :
    Inode.write_at exhaustedFs 1 0 [1] = none ∧
    Inode.create exhaustedFs 0 "b" = none := by
  refine ⟨by decide, by decide⟩

/-- C7 amended: when the data-block allocator is exhausted, any
size-growing write_at (one that needs at least one fresh block) aborts
inside the growth path — `alloc_data` has no `Option` interface at the
vfs layer (vfs.rs:111 pushes its plain result), so `increase_size`
propagates no explicit failure result and the caller receives no result
at all. -/
theorem write_at_exhaustion_aborts (fs : EasyFileSystem)
    (slot offset : Nat) (buf : List Nat)
    (hfull : ∀ b ∈ fs.dataBitmap, b = true)
    (hgrow : ¬ (offset + buf.length < (getInode fs slot).size))
    (hneed : 0 < (getInode fs slot).blocks_num_needed
      (offset + buf.length)) :
    Inode.write_at fs slot offset buf = none := by
  unfold Inode.write_at
  have had : alloc_data fs = none := by
    unfold alloc_data bitmap_alloc
    have hidx : fs.dataBitmap.findIdx? (fun b => !b) = none := by
      rw [List.findIdx?_eq_none_iff]
      intro b hb
      simp [hfull b hb]
    rw [hidx]
  have hinc : Inode.increase_size fs (getInode fs slot)
      (offset + buf.length) = none := by
    unfold Inode.increase_size
    rw [if_neg hgrow]
    obtain ⟨n, hn⟩ : ∃ n, (getInode fs slot).blocks_num_needed
        (offset + buf.length) = n + 1 :=
      ⟨(getInode fs slot).blocks_num_needed (offset + buf.length) - 1,
       by omega⟩
    rw [hn]
    unfold Inode.allocMany
    rw [had]
  rw [hinc]

/-- Witness for the amended C7: the concrete exhausted filesystem needs
one fresh block for a one-byte write at offset 0 of the empty file, and
that write aborts. -/
theorem write_at_exhaustion_aborts_witness :
    0 < (getInode exhaustedFs 1).blocks_num_needed 1 ∧
    Inode.write_at exhaustedFs 1 0 [1] = none :=
  ⟨by decide, write_at_exhaustion_aborts exhaustedFs 1 0 [1]
    (by decide) (by decide) (by decide)⟩

/-- Counterexample to C8 as stated: when old_name resolves, link's
manager-lock trace contains two acquisitions — the resolve step runs in
find's own critical section, which is released before the lock is
re-acquired for the append-and-increment — so the
resolve-then-append-then-increment sequence is not a single critical
section under the manager lock. -/
theorem link_single_critical_section_counterexample :
    (linkLockEvents false true).count LockEvent.fsAcquire = 2 ∧
    ¬ ((linkLockEvents false true).count LockEvent.fsAcquire ≤ 1) := by
  refine ⟨by decide, by decide⟩

/-- C8 amended: create and unlink each hold the manager lock for the
whole operation (one acquire/release pair spanning their
observe-then-mutate sequence), but link, when old_name resolves, first
takes and releases the lock inside find (vfs.rs:222 calling vfs.rs:83)
and only then re-acquires it (vfs.rs:223) for the append and the nlink
increment: two critical sections, with a window between the resolve and
the append. -/
theorem manager_lock_spans :
    createLockEvents = [LockEvent.fsAcquire, LockEvent.fsRelease] ∧
    unlinkLockEvents = [LockEvent.fsAcquire, LockEvent.fsRelease] ∧
    findLockEvents = [LockEvent.fsAcquire, LockEvent.fsRelease] ∧
    linkLockEvents false true =
      [LockEvent.fsAcquire, LockEvent.fsRelease,
       LockEvent.fsAcquire, LockEvent.fsRelease] := by
  refine ⟨rfl, rfl, rfl, by decide⟩

/-- C3 scenario stage 1: from the root-only filesystem, create file "a"
and write bytes 7, 8, 9 to it. -/
def c3Start : Option EasyFileSystem :=
  (Inode.create rootOnlyFs 0 "a").bind fun p =>
    match p.1 with
    | none => none
    | some f => (Inode.write_at p.2 f 0 [7, 8, 9]).map fun q => q.2

/-- C3 scenario stage 2: link name "b" to "a". -/
def c3AfterLink : Option EasyFileSystem :=
  c3Start.bind fun fs =>
    (Inode.link fs 0 "a" "b").bind fun l =>
      if l.1 = 0 then some l.2 else none

/-- C3 scenario stage 3: unlink "a". -/
def c3AfterUnlinkA : Option EasyFileSystem :=
  c3AfterLink.bind fun fs =>
    (Inode.unlink fs 0 "a").bind fun l =>
      if l.1 = 0 then some l.2 else none

/-- C3 scenario stage 4: unlink "b". -/
def c3AfterUnlinkB : Option EasyFileSystem :=
  c3AfterUnlinkA.bind fun fs =>
    (Inode.unlink fs 0 "b").bind fun l =>
      if l.1 = 0 then some l.2 else none

/-- C3: starting from one file with nlink 1 (created as "a" with three
bytes of content in data block 1), link("a","b") succeeds and makes
nlink 2 with both names listed and resolving to inode 1; unlink("a")
succeeds, drops nlink to 1, removes "a" from the listing, and leaves
the file's data block allocated with its bytes intact; unlink("b")
succeeds, drops nlink to 0, and returns all of the inode's blocks to
the data allocator (every data-bitmap bit is clear again). -/
theorem link_unlink_counting_scenario :
    (c3Start.map fun fs => (Inode.nlink fs 1, Inode.ls fs 0)) =
      some (1, ["a"]) ∧
    (c3AfterLink.map fun fs => (Inode.nlink fs 1, Inode.ls fs 0,
      Inode.find fs 0 "a", Inode.find fs 0 "b")) =
      some (2, ["a", "b"], some (some 1), some (some 1)) ∧
    (c3AfterUnlinkA.map fun fs => (Inode.nlink fs 1, Inode.ls fs 0,
      (getInode fs 1).blocks, fs.dataBitmap.getD 1 false,
      Inode.read_at fs 1 0 3)) =
      some (1, ["b"], [1], true, [7, 8, 9]) ∧
    (c3AfterUnlinkB.map fun fs => (Inode.nlink fs 1, fs.dataBitmap)) =
      some (0, [false, false, false, false]) := by
  refine ⟨by decide, by decide, by decide, by decide⟩
